import Mathlib

/-!
# Batch lineage reconstruction: a shallow embedding of `Batch_history.py`

This file embeds the two classes of `Batch_history.py` — `BatchHistory`
(building a lineage map from derivation edges) and `ReconstructPaths`
(per-target graph expansion and exhaustive simple-path enumeration) — as
executable Lean definitions, and proves the specified properties about them.

Python `dict`s are modelled as insertion-ordered association lists
(`Dict α β`), Python lists as Lean lists, and the two sources of partiality
in the Python code — unbounded recursion (graph expansion on cyclic input)
and `KeyError` on a missing dictionary key — are made explicit: the
recursive procedures take a fuel argument and return `none` / `RunRes.fuelOut`
when the fuel runs out (modelling non-termination) and `RunRes.keyError`
when a lookup that Python performs with `d[k]` misses.

Batch identifiers are opaque and compared only for equality, so the whole
development is generic over a type `α` with decidable equality; concrete
test inputs instantiate `α := String`.
-/

namespace BatchHist

variable {α : Type} [DecidableEq α]

/-- Insertion-ordered association list, modelling a Python `dict`:
the first entry with a given key is the binding, `dictSet` updates in
place (keeping the position of an existing key) or appends a fresh key
at the end — exactly Python's insertion-order semantics. -/
abbrev Dict (α β : Type) := List (α × β)

/-- `d[k]` as a total lookup: the value at the first entry whose key is `k`. -/
def dictFind? (d : Dict α β) (k : α) : Option β :=
  match d with
  | [] => none
  | (k', v) :: rest => if k' = k then some v else dictFind? rest k

/-- `k in d` for a Python dict. -/
def dictMem (d : Dict α β) (k : α) : Bool :=
  (dictFind? d k).isSome

/-- `d[k] = v` for a Python dict: overwrite the first entry with key `k`
in place, or append a new entry at the end. -/
def dictSet (d : Dict α β) (k : α) (v : β) : Dict α β :=
  match d with
  | [] => [(k, v)]
  | (k', v') :: rest => if k' = k then (k, v) :: rest else (k', v') :: dictSet rest k v

@[simp] theorem dictFind?_nil (k : α) : dictFind? ([] : Dict α β) k = none := rfl

theorem dictFind?_cons (k' : α) (v : β) (rest : Dict α β) (k : α) :
    dictFind? ((k', v) :: rest) k = if k' = k then some v else dictFind? rest k := rfl

@[simp] theorem dictFind?_set_self (d : Dict α β) (k : α) (v : β) :
    dictFind? (dictSet d k v) k = some v := by
  induction d with
  | nil => simp [dictSet, dictFind?]
  | cons hd rest ih =>
    obtain ⟨k', v'⟩ := hd
    by_cases h : k' = k
    · simp [dictSet, dictFind?, h]
    · simp [dictSet, dictFind?, h, ih]

theorem dictFind?_set_ne (d : Dict α β) (k k' : α) (v : β) (h : k ≠ k') :
    dictFind? (dictSet d k v) k' = dictFind? d k' := by
  induction d with
  | nil => simp [dictSet, dictFind?, h]
  | cons hd rest ih =>
    obtain ⟨k₀, v₀⟩ := hd
    by_cases h₀ : k₀ = k
    · subst h₀
      simp [dictSet, dictFind?, h]
    · simp [dictSet, h₀, dictFind?, ih]

theorem dictSet_set (d : Dict α β) (k : α) (a b : β) :
    dictSet (dictSet d k a) k b = dictSet d k b := by
  induction d with
  | nil => simp [dictSet]
  | cons hd rest ih =>
    obtain ⟨k₀, v₀⟩ := hd
    by_cases h₀ : k₀ = k
    · simp [dictSet, h₀]
    · simp [dictSet, h₀, ih]

theorem dictSet_self (d : Dict α β) (k : α) (v : β) (h : dictFind? d k = some v) :
    dictSet d k v = d := by
  induction d with
  | nil => simp [dictFind?] at h
  | cons hd rest ih =>
    obtain ⟨k₀, v₀⟩ := hd
    by_cases h₀ : k₀ = k
    · subst h₀
      simp [dictFind?] at h
      simp [dictSet, h]
    · simp [dictFind?, h₀] at h
      simp [dictSet, h₀, ih h]

theorem dictMem_set (d : Dict α β) (k k' : α) (v : β) (h : dictMem d k') :
    dictMem (dictSet d k v) k' := by
  by_cases hk : k = k'
  · subst hk
    simp [dictMem, dictFind?_set_self]
  · simpa [dictMem, dictFind?_set_ne d k k' v hk] using h

theorem dictMem_set_self (d : Dict α β) (k : α) (v : β) :
    dictMem (dictSet d k v) k := by
  simp [dictMem, dictFind?_set_self]

/-! ## `BatchHistory` (builds the lineage map)

`LineageMap` maps a TO batch to the ordered, deduplicated list of FROM
batches it was derived from. -/

abbrev LineageMap (α : Type) := Dict α (List α)

/-- `BatchHistory.update_to_batch_dict`: merge one `(FROM Batch, TO Batch)`
row into the batch dictionary.  A fresh TO key gets the singleton list;
an existing key gets the FROM batch appended only if not already present. -/
def update_to_batch_dict (from_batch to_batch : α) (batch_dict : LineageMap α) :
    LineageMap α :=
  match dictFind? batch_dict to_batch with
  | none => dictSet batch_dict to_batch [from_batch]
  | some from_batch_list =>
    if from_batch ∈ from_batch_list then batch_dict
    else dictSet batch_dict to_batch (from_batch_list ++ [from_batch])

/-- `BatchHistory.apply`: fold all `(FROM Batch, TO Batch)` rows, in order,
into the batch dictionary. -/
def buildBatchDict (rows : List (α × α)) : LineageMap α :=
  rows.foldl (fun d row => update_to_batch_dict row.1 row.2 d) []

/-! ## `ReconstructPaths`

Per-target state: the forward edge dictionary (`edges`), the list of
source batches found so far (`sources`, a Python *list*, appended to),
and the accumulated path list (`paths`). -/

/-- Outcome of a fuelled run of a `ReconstructPaths` routine:
`ok` is normal return, `keyError` models a Python `KeyError` on a missing
dictionary key, `fuelOut` models non-termination (fuel exhausted). -/
inductive RunRes (σ : Type) : Type where
  | ok : σ → RunRes σ
  | keyError : RunRes σ
  | fuelOut : RunRes σ
deriving DecidableEq, Repr

/-- `ReconstructPaths.add_edge`: add edge `u → v` to the edges dictionary.
With `v = none` (the final node) the adjacency of `u` is *overwritten*
with the empty list; otherwise `v` is appended to `u`'s adjacency unless
the edge is already present (`setdefault` creates a missing key). -/
def add_edge (u : α) (v : Option α) (edges : Dict α (List α)) : Dict α (List α) :=
  match v with
  | none => dictSet edges u []
  | some v =>
    match dictFind? edges u with
    | none => dictSet edges u [v]
    | some l => if v ∈ l then edges else dictSet edges u (l ++ [v])

/-- One backward-walk state: the edges dictionary and the sources list. -/
abbrev WalkSt (α : Type) := Dict α (List α) × List α

/-- The loop body of `ReconstructPaths.add_edges` over one FROM-batch list:
for each `from_batch`, add the forward edge `from_batch → to_batch`; if
`from_batch` is itself a TO key of the batch dictionary, recurse into it
(`rec`), otherwise append it to the sources list.  `rec` is the recursive
call at the next-smaller fuel. -/
def add_edges_list (rec : α → WalkSt α → Option (WalkSt α)) (to_batch : α)
    (batch_dict : LineageMap α) : List α → WalkSt α → Option (WalkSt α)
  | [], st => some st
  | from_batch :: rest, st =>
    let edges := add_edge from_batch (some to_batch) st.1
    if dictMem batch_dict from_batch then
      match rec from_batch (edges, st.2) with
      | none => none
      | some st' => add_edges_list rec to_batch batch_dict rest st'
    else
      add_edges_list rec to_batch batch_dict rest (edges, st.2 ++ [from_batch])

/-- `ReconstructPaths.add_edges`: recursively expand the batch dictionary
backward from `to_batch` into forward edges, collecting source batches.
An unknown `to_batch` is only logged (state returned unchanged).  The
fuel models the recursion; `none` means the fuel ran out, i.e. the Python
recursion would still be running (or have overflowed the stack). -/
def add_edges (fuel : Nat) (batch_dict : LineageMap α) (to_batch : α)
    (st : WalkSt α) : Option (WalkSt α) :=
  match fuel with
  | 0 => none
  | fuel + 1 =>
    match dictFind? batch_dict to_batch with
    | none => some st
    | some from_batch_list =>
      add_edges_list (fun t st' => add_edges fuel batch_dict t st') to_batch
        batch_dict from_batch_list st

/-- Step A of `ReconstructPaths.apply` for one target: seed the edges
dictionary with the sink (`add_edge to_batch None`) and run `add_edges`. -/
def expandTarget (fuel : Nat) (batch_dict : LineageMap α) (to_batch : α) :
    Option (WalkSt α) :=
  add_edges fuel batch_dict to_batch (add_edge to_batch none [], [])

/-- DFS state: the `visited` dictionary, the current `path` stack and the
accumulated `self.paths` list. -/
abbrev DfsSt (α : Type) := Dict α Bool × List α × List (List α)

/-- The neighbour loop of `ReconstructPaths.determine_all_paths_util`:
`visited[i]` is a raw lookup (may `KeyError`); unvisited neighbours are
explored via `rec`, the recursive call at the next-smaller fuel. -/
def dfs_list (rec : α → DfsSt α → RunRes (DfsSt α)) :
    List α → DfsSt α → RunRes (DfsSt α)
  | [], st => .ok st
  | i :: rest, st =>
    match dictFind? st.1 i with
    | none => .keyError
    | some b =>
      if b then dfs_list rec rest st
      else
        match rec i st with
        | .ok st' => dfs_list rec rest st'
        | e => e

/-- `ReconstructPaths.determine_all_paths_util`: mark `u` visited, push it
on the path; if `u` is the destination, append a copy of the path to the
accumulated paths unless an identical sequence is already there; otherwise
recurse into every unvisited neighbour (`edges[u]` is a raw lookup).  On
the way out, pop the path and mark `u` unvisited. -/
def dfs_util (fuel : Nat) (d : α) (edges : Dict α (List α)) (u : α)
    (st : DfsSt α) : RunRes (DfsSt α) :=
  match fuel with
  | 0 => .fuelOut
  | fuel + 1 =>
    let visited := dictSet st.1 u true
    let path := st.2.1 ++ [u]
    let res : RunRes (DfsSt α) :=
      if u = d then
        .ok (visited, path, if path ∈ st.2.2 then st.2.2 else st.2.2 ++ [path])
      else
        match dictFind? edges u with
        | none => .keyError
        | some adj =>
          dfs_list (fun i st' => dfs_util fuel d edges i st') adj
            (visited, path, st.2.2)
    match res with
    | .ok (v', p', ps') => .ok (dictSet v' u false, p'.dropLast, ps')
    | e => e

/-- `ReconstructPaths.determine_all_paths`: initialise `visited` to `False`
for every key of the edges dictionary, start from an empty path, and run
the recursive helper from source `s` to destination `d`, returning the
updated accumulated path list. -/
def determine_all_paths (fuel : Nat) (s d : α) (edges : Dict α (List α))
    (paths : List (List α)) : RunRes (List (List α)) :=
  let visited : Dict α Bool := edges.map (fun kv => (kv.1, false))
  match dfs_util fuel d edges s (visited, [], paths) with
  | .ok (_, _, ps) => .ok ps
  | .keyError => .keyError
  | .fuelOut => .fuelOut

/-- The source loop in `ReconstructPaths.apply`: run `determine_all_paths`
once per recorded source, threading the accumulated path list. -/
def runSources (fuel : Nat) (d : α) (edges : Dict α (List α)) :
    List α → List (List α) → RunRes (List (List α))
  | [], paths => .ok paths
  | s :: rest, paths =>
    match determine_all_paths fuel s d edges paths with
    | .ok paths' => runSources fuel d edges rest paths'
    | .keyError => .keyError
    | .fuelOut => .fuelOut

/-- The body of `ReconstructPaths.apply` for a single target: reset the
per-target state (`edges = {}`, `paths = []`, `sources = []`), expand the
graph, then enumerate the paths from every recorded source. -/
def processTarget (fuel : Nat) (batch_dict : LineageMap α) (to_batch : α) :
    RunRes (List (List α)) :=
  match expandTarget fuel batch_dict to_batch with
  | none => .fuelOut
  | some (edges, sources) => runSources fuel to_batch edges sources []

/-- `ReconstructPaths.apply`: process each target in order, storing its
path list in the instance's `path_dictionary` (passed in explicitly, since
it is initialised once in `__init__` and survives across `apply` calls). -/
def reconstructApply (fuel : Nat) (batch_dict : LineageMap α) :
    List α → Dict α (List (List α)) → RunRes (Dict α (List (List α)))
  | [], path_dictionary => .ok path_dictionary
  | to_batch :: rest, path_dictionary =>
    match processTarget fuel batch_dict to_batch with
    | .ok paths => reconstructApply fuel batch_dict rest (dictSet path_dictionary to_batch paths)
    | .keyError => .keyError
    | .fuelOut => .fuelOut

/-! Concrete inputs used by the testable properties. -/

/-- The diamond rows of §8: `(A,B)`, `(A,C)`, `(B,D)`, `(C,D)`. -/
def diamondRows : List (String × String) :=
  [("A", "B"), ("A", "C"), ("B", "D"), ("C", "D")]

/-- The lineage map built from the diamond rows. -/
def diamondDict : LineageMap String := buildBatchDict diamondRows

/-- A two-cycle lineage: `A` derived from `B` and `B` derived from `A`. -/
def cyclicDict : LineageMap String := buildBatchDict [("B", "A"), ("A", "B")]

/-! ## Lineage-map lemmas (for the `BatchHistory` properties) -/

/-- The FROM batches of all rows targeting `t`, in row order. -/
def relevantFroms (rows : List (α × α)) (t : α) : List α :=
  (rows.filter (fun row => row.2 = t)).map Prod.fst

/-- First-seen deduplicating merge: insert each element of the second list
in order at the end of the first, skipping elements already present. -/
def mergeInto : List α → List α → List α
  | l, [] => l
  | l, f :: fs => mergeInto (if f ∈ l then l else l ++ [f]) fs

/-- The value a lineage-map key holds after merging a FROM list into its
current (optional) value: no rows for an unseen key leaves it unseen. -/
def mergeOpt : Option (List α) → List α → Option (List α)
  | none, [] => none
  | none, f :: fs => some (mergeInto [f] fs)
  | some l, fs => some (mergeInto l fs)

theorem update_find_ne (f tb : α) (d : LineageMap α) (t : α) (h : tb ≠ t) :
    dictFind? (update_to_batch_dict f tb d) t = dictFind? d t := by
  unfold update_to_batch_dict
  cases hfd : dictFind? d tb with
  | none => simp [dictFind?_set_ne _ _ _ _ h]
  | some l =>
    by_cases hf : f ∈ l
    · simp [hf]
    · simp [hf, dictFind?_set_ne _ _ _ _ h]

theorem update_idem (f tb : α) (d : LineageMap α) :
    update_to_batch_dict f tb (update_to_batch_dict f tb d) =
      update_to_batch_dict f tb d := by
  unfold update_to_batch_dict
  cases hfd : dictFind? d tb with
  | none => simp [dictFind?_set_self]
  | some l =>
    by_cases hf : f ∈ l
    · simp [hf, hfd]
    · simp [hf, dictFind?_set_self]

theorem foldl_update_find (rows : List (α × α)) :
    ∀ (d : LineageMap α) (t : α),
      dictFind? (rows.foldl (fun d row => update_to_batch_dict row.1 row.2 d) d) t =
        mergeOpt (dictFind? d t) (relevantFroms rows t) := by
  induction rows with
  | nil => intro d t; cases h : dictFind? d t <;> simp [relevantFroms, mergeOpt, mergeInto, h]
  | cons row rest ih =>
    intro d t
    obtain ⟨f, tb⟩ := row
    by_cases ht : tb = t
    · subst ht
      have hrel : relevantFroms ((f, tb) :: rest) tb = f :: relevantFroms rest tb := by
        simp [relevantFroms]
      rw [List.foldl_cons, ih, hrel]
      cases hfd : dictFind? d tb with
      | none =>
        simp only [update_to_batch_dict, hfd]
        rw [dictFind?_set_self]
        simp [mergeOpt]
      | some l =>
        by_cases hf : f ∈ l
        · simp only [update_to_batch_dict, hfd, if_pos hf]
          simp [hfd, mergeOpt, mergeInto, hf]
        · simp only [update_to_batch_dict, hfd, if_neg hf]
          rw [dictFind?_set_self]
          simp [mergeOpt, mergeInto, hf]
    · have hrel : relevantFroms ((f, tb) :: rest) t = relevantFroms rest t := by
        simp [relevantFroms, ht]
      rw [List.foldl_cons, ih, hrel, update_find_ne f tb d t ht]

theorem mergeInto_nodup : ∀ (fs l : List α), l.Nodup → (mergeInto l fs).Nodup := by
  intro fs
  induction fs with
  | nil => intro l h; simpa [mergeInto] using h
  | cons f rest ih =>
    intro l h
    have hstep : mergeInto l (f :: rest) = mergeInto (if f ∈ l then l else l ++ [f]) rest := rfl
    rw [hstep]
    by_cases hf : f ∈ l
    · rw [if_pos hf]; exact ih l h
    · rw [if_neg hf]
      exact ih (l ++ [f]) (by simp [List.nodup_append, h, hf])

theorem buildBatchDict_nodup (rows : List (α × α)) (t : α) (l : List α)
    (h : dictFind? (buildBatchDict rows) t = some l) : l.Nodup := by
  have hchar := foldl_update_find rows ([] : LineageMap α) t
  rw [buildBatchDict] at h
  rw [h] at hchar
  simp only [dictFind?_nil] at hchar
  cases hrel : relevantFroms rows t with
  | nil =>
    rw [hrel, show mergeOpt (none : Option (List α)) [] = none from rfl] at hchar
    cases hchar
  | cons f fs =>
    rw [hrel,
      show mergeOpt (none : Option (List α)) (f :: fs) = some (mergeInto [f] fs) from rfl] at hchar
    rw [Option.some.inj hchar]
    exact mergeInto_nodup fs [f] (by simp)

/-! ## `reconstructApply` accumulation lemmas -/

theorem apply_frame (fuel : Nat) (bd : LineageMap α) :
    ∀ (ts : List α) (pd d' : Dict α (List (List α))),
      reconstructApply fuel bd ts pd = .ok d' →
      ∀ k, k ∉ ts → dictFind? d' k = dictFind? pd k := by
  intro ts
  induction ts with
  | nil => intro pd d' h k _; cases h; rfl
  | cons t rest ih =>
    intro pd d' h k hk
    simp only [reconstructApply] at h
    cases hp : processTarget fuel bd t with
    | ok paths =>
      rw [hp] at h
      have hne : k ≠ t := fun he => hk (he ▸ List.mem_cons_self t rest)
      have := ih (dictSet pd t paths) d' h k (fun hm => hk (List.mem_cons_of_mem t hm))
      rw [this, dictFind?_set_ne pd t k paths (Ne.symm hne)]
    | keyError => rw [hp] at h; cases h
    | fuelOut => rw [hp] at h; cases h

theorem apply_mem (fuel : Nat) (bd : LineageMap α) :
    ∀ (ts : List α) (pd d' : Dict α (List (List α))),
      reconstructApply fuel bd ts pd = .ok d' →
      ∀ t ∈ ts, ∃ paths, processTarget fuel bd t = .ok paths ∧
        dictFind? d' t = some paths := by
  intro ts
  induction ts with
  | nil => intro pd d' _ t ht; cases ht
  | cons t₀ rest ih =>
    intro pd d' h t ht
    simp only [reconstructApply] at h
    cases hp : processTarget fuel bd t₀ with
    | ok paths =>
      rw [hp] at h
      by_cases hmem : t ∈ rest
      · exact ih _ d' h t hmem
      · have ht0 : t = t₀ := by
          rcases List.mem_cons.mp ht with h' | h'
          · exact h'
          · exact absurd h' hmem
        subst ht0
        refine ⟨paths, hp, ?_⟩
        rw [apply_frame fuel bd rest _ d' h t hmem, dictFind?_set_self]
    | keyError => rw [hp] at h; cases h
    | fuelOut => rw [hp] at h; cases h

/-! ## Sources have no recorded ancestry -/

theorem add_edges_list_src (bd : LineageMap α) (tb : α)
    (rec : α → WalkSt α → Option (WalkSt α))
    (hrec : ∀ t st st', rec t st = some st' →
      (∀ x ∈ st.2, dictFind? bd x = none) → ∀ x ∈ st'.2, dictFind? bd x = none) :
    ∀ (fl : List α) (st st' : WalkSt α),
      add_edges_list rec tb bd fl st = some st' →
      (∀ x ∈ st.2, dictFind? bd x = none) → ∀ x ∈ st'.2, dictFind? bd x = none := by
  intro fl
  induction fl with
  | nil => intro st st' h hst; cases h; exact hst
  | cons f rest ih =>
    intro st st' h hst
    simp only [add_edges_list] at h
    by_cases hm : dictMem bd f
    · rw [if_pos hm] at h
      cases hrc : rec f (add_edge f (some tb) st.1, st.2) with
      | none => rw [hrc] at h; cases h
      | some st₁ =>
        rw [hrc] at h
        exact ih st₁ st' h (hrec f _ st₁ hrc hst)
    · rw [if_neg hm] at h
      refine ih _ st' h ?_
      intro x hx
      rcases List.mem_append.mp hx with hx | hx
      · exact hst x hx
      · have hxf : x = f := by simpa using hx
        subst hxf
        have hns : ¬ (dictFind? bd x).isSome := by simpa [dictMem] using hm
        exact Option.not_isSome_iff_eq_none.mp hns

theorem add_edges_src (bd : LineageMap α) :
    ∀ (fuel : Nat) (tb : α) (st st' : WalkSt α),
      add_edges fuel bd tb st = some st' →
      (∀ x ∈ st.2, dictFind? bd x = none) → ∀ x ∈ st'.2, dictFind? bd x = none := by
  intro fuel
  induction fuel with
  | zero => intro tb st st' h; cases h
  | succ fuel ih =>
    intro tb st st' h hst
    simp only [add_edges] at h
    cases hfd : dictFind? bd tb with
    | none => rw [hfd] at h; cases h; exact hst
    | some fl =>
      rw [hfd] at h
      exact add_edges_list_src bd tb _ (fun t s s' hr => ih t s s' hr) fl st st' h hst

/-! ## Claim theorems (first batch) -/

/-- C1: for the lineage map built from the diamond edges `(A,B)`, `(A,C)`,
`(B,D)`, `(C,D)`, reconstructing target `D` yields exactly the two paths
`[A, B, D]` and `[A, C, D]`, and `A` is the sole source recorded during
graph expansion (deduplicating the collected sources list leaves `[A]`). -/
theorem diamond_paths_exact :
    processTarget 32 diamondDict "D" = .ok [["A", "B", "D"], ["A", "C", "D"]] ∧
      (expandTarget 32 diamondDict "D").map (fun st => st.2.dedup) = some ["A"] := by
  constructor
  · decide
  · decide

/-- C2 counterexample: in the diamond, source `A` is reachable via both
branches and the code *appends* it to the sources list once per branch, so
the collected sources are `["A", "A"]` — not set semantics, the claim that a
batch enters the source collection at most once is false. -/
theorem sources_duplicate_counterexample :
    (expandTarget 32 diamondDict "D").map Prod.snd = some ["A", "A"] ∧
      ¬ (["A", "A"] : List String).Nodup := by
  constructor
  · decide
  · decide

/-- C2 amended: every batch recorded in the sources list during graph
expansion indeed has no recorded ancestry (it is not a key of the lineage
map), but it is appended once per backward-walk branch reaching it, so it
may appear several times in the collected sources (list append, not set
semantics). -/
theorem sources_have_no_ancestry {α : Type} [DecidableEq α]
    (fuel : Nat) (bd : LineageMap α) (t : α) (edges : Dict α (List α))
    (srcs : List α) (h : expandTarget fuel bd t = some (edges, srcs)) :
    ∀ x ∈ srcs, dictFind? bd x = none := by
  exact add_edges_src bd fuel t _ (edges, srcs) h (by intro x hx; cases hx)

/-- Witness for `sources_have_no_ancestry` at the diamond input: the
collected source `A` has no recorded ancestry. -/
theorem sources_have_no_ancestry_witness :
    dictFind? diamondDict "A" = none :=
  sources_have_no_ancestry 32 diamondDict "D"
    [("D", []), ("B", ["D"]), ("A", ["B", "C"]), ("C", ["D"])] ["A", "A"] (by decide)
    "A" (by decide)

/-- C6: merging a `(from, to)` edge into the lineage map is idempotent;
moreover the list stored at any key of the built map is exactly the
first-seen-order deduplicating merge of the FROM batches of the rows
targeting that key, and in particular it never contains duplicates. -/
theorem lineage_merge_idempotent_nodup {α : Type} [DecidableEq α] :
    (∀ (f t : α) (d : LineageMap α),
        update_to_batch_dict f t (update_to_batch_dict f t d) =
          update_to_batch_dict f t d) ∧
    (∀ (rows : List (α × α)) (t : α),
        dictFind? (buildBatchDict rows) t = mergeOpt none (relevantFroms rows t)) ∧
    (∀ (rows : List (α × α)) (t : α) (l : List α),
        dictFind? (buildBatchDict rows) t = some l → l.Nodup) := by
  refine ⟨fun f t d => update_idem f t d, fun rows t => ?_, buildBatchDict_nodup⟩
  have := foldl_update_find rows ([] : LineageMap α) t
  simpa [buildBatchDict] using this

/-- Witness for `lineage_merge_idempotent_nodup`: the diamond map's entry
for `D` is duplicate-free. -/
theorem lineage_merge_idempotent_nodup_witness : (["B", "C"] : List String).Nodup :=
  lineage_merge_idempotent_nodup.2.2 diamondRows "D" ["B", "C"] (by decide)

/-! ## The backward walk relation and cyclic divergence

`StepB bd a b` holds when the recursive walk of `add_edges`, currently at
TO-batch `a`, descends into `b`: `b` is in `a`'s FROM list and is itself a
key of the batch dictionary. -/

def StepB (bd : LineageMap α) (a b : α) : Prop :=
  (∃ fl, dictFind? bd a = some fl ∧ b ∈ fl) ∧ dictMem bd b = true

/-- Reflexive-transitive closure of `StepB`: the nodes the backward walk
from `a` can be at. -/
inductive WalkReach (bd : LineageMap α) : α → α → Prop where
  | refl (a : α) : WalkReach bd a a
  | tail {a b c : α} : WalkReach bd a b → StepB bd b c → WalkReach bd a c

/-- Nonempty `StepB` chains. `BPathP bd x x` is a genuine backward cycle
through keys of the batch dictionary. -/
inductive BPathP (bd : LineageMap α) : α → α → Prop where
  | single {a b : α} : StepB bd a b → BPathP bd a b
  | tail {a b c : α} : BPathP bd a b → StepB bd b c → BPathP bd a c

theorem BPathP_head_cases {bd : LineageMap α} {a c : α} (h : BPathP bd a c) :
    StepB bd a c ∨ ∃ b, StepB bd a b ∧ BPathP bd b c := by
  induction h with
  | single s => exact Or.inl s
  | tail _ s ih =>
    rcases ih with hs | ⟨x, sx, px⟩
    · exact Or.inr ⟨_, hs, BPathP.single s⟩
    · exact Or.inr ⟨x, sx, px.tail s⟩

theorem BPathP_rotate {bd : LineageMap α} {x : α} (h : BPathP bd x x) :
    ∃ y, StepB bd x y ∧ BPathP bd y y := by
  rcases BPathP_head_cases h with hs | ⟨b, sb, pb⟩
  · exact ⟨x, hs, BPathP.single hs⟩
  · exact ⟨b, sb, pb.tail sb⟩

theorem WalkReach_close {bd : LineageMap α} {a b c : α}
    (hw : WalkReach bd a b) : StepB bd b c → BPathP bd a c := by
  induction hw generalizing c with
  | refl => exact fun hs => BPathP.single hs
  | tail _ s ih => exact fun hs => (ih s).tail hs

theorem add_edge_find_ne (u : α) (v : Option α) (E : Dict α (List α)) (T : α)
    (h : u ≠ T) : dictFind? (add_edge u v E) T = dictFind? E T := by
  unfold add_edge
  cases v with
  | none => exact dictFind?_set_ne E u T [] h
  | some v =>
    cases dictFind? E u with
    | none => exact dictFind?_set_ne E u T [v] h
    | some l =>
      by_cases hv : v ∈ l
      · simp [hv]
      · simp [hv, dictFind?_set_ne E u T (l ++ [v]) h]

/-- If the walk from `y` would diverge for every state, a FROM list
containing `y` (a key of the map) makes the whole loop diverge. -/
theorem add_edges_list_none (rec : α → WalkSt α → Option (WalkSt α))
    (tb : α) (bd : LineageMap α) (y : α) (hy : ∀ st, rec y st = none)
    (hymem : dictMem bd y = true) :
    ∀ (fl : List α) (st : WalkSt α), y ∈ fl →
      add_edges_list rec tb bd fl st = none := by
  intro fl
  induction fl with
  | nil => intro st hm; cases hm
  | cons f rest ih =>
    intro st hm
    simp only [add_edges_list]
    by_cases hfm : dictMem bd f
    · rw [if_pos hfm]
      cases hrc : rec f (add_edge f (some tb) st.1, st.2) with
      | none => rfl
      | some st₁ =>
        have hfy : f ≠ y := by
          intro he
          rw [he, hy _] at hrc
          cases hrc
        have : y ∈ rest := by
          rcases List.mem_cons.mp hm with h' | h'
          · exact absurd h'.symm hfy
          · exact h'
        simp only [hrc]
        exact ih st₁ this
    · rw [if_neg hfm]
      have hfy : f ≠ y := fun he => hfm (he ▸ hymem)
      have : y ∈ rest := by
        rcases List.mem_cons.mp hm with h' | h'
        · exact absurd h'.symm hfy
        · exact h'
      exact ih _ this

/-- A backward cycle through `x` makes `add_edges` diverge from `x`
whatever the fuel: the Python recursion does not terminate. -/
theorem add_edges_cyc (bd : LineageMap α) :
    ∀ (fuel : Nat) (x : α) (st : WalkSt α), BPathP bd x x →
      add_edges fuel bd x st = none := by
  intro fuel
  induction fuel with
  | zero => intro x st _; rfl
  | succ fuel ih =>
    intro x st hcyc
    obtain ⟨y, ⟨⟨fl, hfd, hyfl⟩, hymem⟩, hycyc⟩ := BPathP_rotate hcyc
    simp only [add_edges, hfd]
    exact add_edges_list_none _ x bd y (fun st' => ih y st' hycyc) hymem fl st hyfl

/-- Invariant: while the walk (started at target `T`, currently at a node
`T` can reach) completes normally, the adjacency list of `T` stays empty. -/
theorem add_edges_list_sink (bd : LineageMap α) (T : α)
    (rec : α → WalkSt α → Option (WalkSt α)) (tb : α)
    (hrecs : ∀ t st st', WalkReach bd T t → dictFind? st.1 T = some [] →
      rec t st = some st' → dictFind? st'.1 T = some [])
    (hreccyc : ∀ st, BPathP bd T T → rec T st = none)
    (hTmem : dictMem bd T = true) (hW : WalkReach bd T tb) :
    ∀ (fl : List α) (st st' : WalkSt α),
      (∀ f ∈ fl, ∃ flc, dictFind? bd tb = some flc ∧ f ∈ flc) →
      dictFind? st.1 T = some [] →
      add_edges_list rec tb bd fl st = some st' →
      dictFind? st'.1 T = some [] := by
  intro fl
  induction fl with
  | nil => intro st st' _ hfind h; cases h; exact hfind
  | cons f rest ih =>
    intro st st' hsub hfind h
    simp only [add_edges_list] at h
    by_cases hfT : f = T
    · subst hfT
      rw [if_pos hTmem] at h
      have hstep : StepB bd tb f := ⟨hsub f (List.mem_cons_self f rest), hTmem⟩
      rw [hreccyc _ (WalkReach_close hW hstep)] at h
      cases h
    · have hE : dictFind? (add_edge f (some tb) st.1) T = some [] := by
        rw [add_edge_find_ne f _ _ T hfT]
        exact hfind
      by_cases hfm : dictMem bd f
      · rw [if_pos hfm] at h
        cases hrc : rec f (add_edge f (some tb) st.1, st.2) with
        | none => rw [hrc] at h; cases h
        | some st₁ =>
          rw [hrc] at h
          have hstep : StepB bd tb f := ⟨hsub f (List.mem_cons_self f rest), hfm⟩
          exact ih st₁ st'
            (fun g hg => hsub g (List.mem_cons_of_mem f hg))
            (hrecs f _ st₁ (hW.tail hstep) hE hrc) h
      · rw [if_neg hfm] at h
        exact ih _ st' (fun g hg => hsub g (List.mem_cons_of_mem f hg)) hE h

theorem add_edges_sink (bd : LineageMap α) (T : α) (hTmem : dictMem bd T = true) :
    ∀ (fuel : Nat) (tb : α) (st st' : WalkSt α), WalkReach bd T tb →
      dictFind? st.1 T = some [] → add_edges fuel bd tb st = some st' →
      dictFind? st'.1 T = some [] := by
  intro fuel
  induction fuel with
  | zero => intro tb st st' _ _ h; cases h
  | succ fuel ih =>
    intro tb st st' hW hfind h
    simp only [add_edges] at h
    cases hfd : dictFind? bd tb with
    | none => rw [hfd] at h; cases h; exact hfind
    | some fl =>
      rw [hfd] at h
      exact add_edges_list_sink bd T _ tb
        (fun t s s' hw hf hr => ih t s s' hw hf hr)
        (fun s hcyc => add_edges_cyc bd fuel T s hcyc)
        hTmem hW fl st st' (fun f hf => ⟨fl, hfd, hf⟩) hfind h

/-- C7: in the derived graph built for any target from any lineage map,
the target node is present as a key — even when it has no ancestors — and
its adjacency list is empty: the target is the sink.  (If the input had a
backward cycle closing on the target, the expansion would diverge instead
of building a graph, by `add_edges_cyc`.) -/
theorem target_is_sink {α : Type} [DecidableEq α] (fuel : Nat)
    (bd : LineageMap α) (t : α) (E : Dict α (List α)) (srcs : List α)
    (h : expandTarget fuel bd t = some (E, srcs)) :
    dictFind? E t = some [] := by
  unfold expandTarget at h
  have hinit : dictFind? (add_edge t none ([] : Dict α (List α))) t = some [] := by
    simp [add_edge, dictSet, dictFind?]
  by_cases htm : dictMem bd t
  · exact add_edges_sink bd t htm fuel t _ (E, srcs) (WalkReach.refl t) hinit h
  · cases fuel with
    | zero => cases h
    | succ fuel =>
      have hfd : dictFind? bd t = none := by
        have : ¬ (dictFind? bd t).isSome := by simpa [dictMem] using htm
        exact Option.not_isSome_iff_eq_none.mp this
      simp only [add_edges, hfd] at h
      cases h
      exact hinit

/-- Witness for `target_is_sink` at the diamond input. -/
theorem target_is_sink_witness :
    dictFind? [("D", []), ("B", ["D"]), ("A", ["B", "C"]), ("C", ["D"])] "D" =
      some ([] : List String) :=
  target_is_sink 32 diamondDict "D"
    [("D", []), ("B", ["D"]), ("A", ["B", "C"]), ("C", ["D"])] ["A", "A"] (by decide)

/-! ## Closure of the derived graph

`Closed E` says every node appearing in an adjacency list of `E` is
itself a key of `E`; `SubKeys s E` says every element of `s` is a key. -/

def Closed (E : Dict α (List α)) : Prop :=
  ∀ u l, dictFind? E u = some l → ∀ x ∈ l, dictMem E x = true

def SubKeys (s : List α) (E : Dict α (List α)) : Prop :=
  ∀ x ∈ s, dictMem E x = true

theorem add_edge_mem_grow (u : α) (v : Option α) (E : Dict α (List α)) (k : α)
    (h : dictMem E k = true) : dictMem (add_edge u v E) k = true := by
  unfold add_edge
  cases v with
  | none => exact dictMem_set E u k [] h
  | some v =>
    cases dictFind? E u with
    | none => exact dictMem_set E u k [v] h
    | some l =>
      by_cases hv : v ∈ l
      · simpa [hv] using h
      · simpa [hv] using dictMem_set E u k (l ++ [v]) h

theorem add_edge_mem_self (u v : α) (E : Dict α (List α)) :
    dictMem (add_edge u (some v) E) u = true := by
  unfold add_edge
  cases hfd : dictFind? E u with
  | none => exact dictMem_set_self E u [v]
  | some l =>
    by_cases hv : v ∈ l
    · simp [hv, dictMem, hfd]
    · simpa [hv] using dictMem_set_self E u (l ++ [v])

theorem add_edge_closed (u v : α) (E : Dict α (List α))
    (hE : Closed E) (hv : dictMem E v = true) : Closed (add_edge u (some v) E) := by
  intro w l' hw x hx
  cases hfd : dictFind? E u with
  | none =>
    have hae : add_edge u (some v) E = dictSet E u [v] := by simp [add_edge, hfd]
    rw [hae] at hw ⊢
    by_cases hwu : u = w
    · subst hwu
      rw [dictFind?_set_self] at hw
      cases hw
      have hxv : x = v := by simpa using hx
      exact hxv ▸ dictMem_set E u v [v] hv
    · rw [dictFind?_set_ne E u w [v] hwu] at hw
      exact dictMem_set E u x [v] (hE w l' hw x hx)
  | some l =>
    by_cases hvl : v ∈ l
    · have hae : add_edge u (some v) E = E := by simp [add_edge, hfd, hvl]
      rw [hae] at hw ⊢
      exact hE w l' hw x hx
    · have hae : add_edge u (some v) E = dictSet E u (l ++ [v]) := by
        simp [add_edge, hfd, hvl]
      rw [hae] at hw ⊢
      by_cases hwu : u = w
      · subst hwu
        rw [dictFind?_set_self] at hw
        cases hw
        have hmem : dictMem E x = true := by
          rcases List.mem_append.mp hx with hxl | hxv
          · exact hE u l hfd x hxl
          · have hxv' : x = v := by simpa using hxv
            exact hxv' ▸ hv
        exact dictMem_set E u x (l ++ [v]) hmem
      · rw [dictFind?_set_ne E u w (l ++ [v]) hwu] at hw
        exact dictMem_set E u x (l ++ [v]) (hE w l' hw x hx)

/-- The conjunction of the walk-state invariants that `add_edges`
preserves: the edges dictionary is closed, the current TO batch is one of
its keys, every collected source is one of its keys. -/
def WalkInv (tb : α) (st : WalkSt α) : Prop :=
  Closed st.1 ∧ dictMem st.1 tb = true ∧ SubKeys st.2 st.1

theorem add_edges_list_closed (bd : LineageMap α)
    (rec : α → WalkSt α → Option (WalkSt α))
    (hrec : ∀ t st st', WalkInv t st → rec t st = some st' →
      WalkInv t st' ∧ (∀ k, dictMem st.1 k = true → dictMem st'.1 k = true))
    (tb : α) :
    ∀ (fl : List α) (st st' : WalkSt α), WalkInv tb st →
      add_edges_list rec tb bd fl st = some st' →
      WalkInv tb st' ∧ (∀ k, dictMem st.1 k = true → dictMem st'.1 k = true) := by
  intro fl
  induction fl with
  | nil =>
    intro st st' hinv h
    cases h
    exact ⟨hinv, fun k hk => hk⟩
  | cons f rest ih =>
    intro st st' hinv h
    obtain ⟨hcl, htb, hsk⟩ := hinv
    simp only [add_edges_list] at h
    have hgrow₀ : ∀ k, dictMem st.1 k = true →
        dictMem (add_edge f (some tb) st.1) k = true :=
      fun k hk => add_edge_mem_grow f (some tb) st.1 k hk
    have hcl₁ : Closed (add_edge f (some tb) st.1) := add_edge_closed f tb st.1 hcl htb
    have hf₁ : dictMem (add_edge f (some tb) st.1) f = true := add_edge_mem_self f tb st.1
    have htb₁ : dictMem (add_edge f (some tb) st.1) tb = true := hgrow₀ tb htb
    have hsk₁ : SubKeys st.2 (add_edge f (some tb) st.1) :=
      fun x hx => hgrow₀ x (hsk x hx)
    by_cases hfm : dictMem bd f
    · rw [if_pos hfm] at h
      cases hrc : rec f (add_edge f (some tb) st.1, st.2) with
      | none => rw [hrc] at h; cases h
      | some st₁ =>
        rw [hrc] at h
        obtain ⟨⟨hcl₂, hf₂, hsk₂⟩, hgrow₁⟩ :=
          hrec f (add_edge f (some tb) st.1, st.2) st₁ ⟨hcl₁, hf₁, hsk₁⟩ hrc
        have htb₂ : dictMem st₁.1 tb = true := hgrow₁ tb htb₁
        obtain ⟨hinv₃, hgrow₂⟩ := ih st₁ st' ⟨hcl₂, htb₂, hsk₂⟩ h
        exact ⟨hinv₃, fun k hk => hgrow₂ k (hgrow₁ k (hgrow₀ k hk))⟩
    · rw [if_neg hfm] at h
      have hsk₂ : SubKeys (st.2 ++ [f]) (add_edge f (some tb) st.1) := by
        intro x hx
        rcases List.mem_append.mp hx with hx | hx
        · exact hsk₁ x hx
        · have : x = f := by simpa using hx
          exact this ▸ hf₁
      obtain ⟨hinv₃, hgrow₂⟩ := ih _ st' ⟨hcl₁, htb₁, hsk₂⟩ h
      exact ⟨hinv₃, fun k hk => hgrow₂ k (hgrow₀ k hk)⟩

theorem add_edges_closed (bd : LineageMap α) :
    ∀ (fuel : Nat) (tb : α) (st st' : WalkSt α), WalkInv tb st →
      add_edges fuel bd tb st = some st' →
      WalkInv tb st' ∧ (∀ k, dictMem st.1 k = true → dictMem st'.1 k = true) := by
  intro fuel
  induction fuel with
  | zero => intro tb st st' _ h; cases h
  | succ fuel ih =>
    intro tb st st' hinv h
    simp only [add_edges] at h
    cases hfd : dictFind? bd tb with
    | none =>
      rw [hfd] at h
      cases h
      exact ⟨hinv, fun k hk => hk⟩
    | some fl =>
      rw [hfd] at h
      exact add_edges_list_closed bd _ (fun t s s' hi hr => ih t s s' hi hr) tb
        fl st st' hinv h

/-! ## The DFS never misses a key, and restores its traversal state -/

theorem dictMem_set_stable (d : Dict α β) (k : α) (v : β) (h : dictMem d k = true) :
    ∀ k', dictMem (dictSet d k v) k' = dictMem d k' := by
  intro k'
  by_cases hk : k = k'
  · subst hk
    have h1 : dictMem (dictSet d k v) k = true := by
      simp [dictMem, dictFind?_set_self]
    rw [h1, h]
  · simp [dictMem, dictFind?_set_ne d k k' v hk]

theorem dfs_list_restore (rec : α → DfsSt α → RunRes (DfsSt α))
    (hrec : ∀ i v p ps st', dictFind? v i = some false →
      rec i (v, p, ps) = .ok st' → st'.1 = v ∧ st'.2.1 = p) :
    ∀ (adj : List α) (v : Dict α Bool) (p : List α) (ps : List (List α))
      (st' : DfsSt α), dfs_list rec adj (v, p, ps) = .ok st' →
      st'.1 = v ∧ st'.2.1 = p := by
  intro adj
  induction adj with
  | nil => intro v p ps st' h; cases h; exact ⟨rfl, rfl⟩
  | cons i rest ih =>
    intro v p ps st' h
    simp only [dfs_list] at h
    cases hfd : dictFind? v i with
    | none => simp only [hfd] at h; cases h
    | some b =>
      simp only [hfd] at h
      by_cases hb : b = true
      · rw [if_pos hb] at h
        exact ih v p ps st' h
      · rw [if_neg hb] at h
        have hbf : b = false := by
          cases b
          · rfl
          · exact absurd rfl hb
        cases hrc : rec i (v, p, ps) with
        | ok st₁ =>
          obtain ⟨v₁, p₁, ps₁⟩ := st₁
          simp only [hrc] at h
          obtain ⟨hv₁, hp₁⟩ := hrec i v p ps (v₁, p₁, ps₁) (hbf ▸ hfd) hrc
          dsimp at hv₁ hp₁
          rw [hv₁, hp₁] at h
          exact ih v p ps₁ st' h
        | keyError => simp only [hrc] at h; cases h
        | fuelOut => simp only [hrc] at h; cases h

theorem dfs_util_restore (d : α) (E : Dict α (List α)) :
    ∀ (fuel : Nat) (u : α) (v : Dict α Bool) (p : List α) (ps : List (List α))
      (st' : DfsSt α), dictFind? v u = some false →
      dfs_util fuel d E u (v, p, ps) = .ok st' → st'.1 = v ∧ st'.2.1 = p := by
  intro fuel
  induction fuel with
  | zero => intro u v p ps st' _ h; cases h
  | succ fuel ih =>
    intro u v p ps st' hfind h
    simp only [dfs_util] at h
    by_cases hud : u = d
    · rw [if_pos hud] at h
      simp only [] at h
      cases h
      refine ⟨?_, by simp⟩
      show dictSet (dictSet v u true) u false = v
      rw [dictSet_set]
      exact dictSet_self v u false hfind
    · rw [if_neg hud] at h
      cases hfd : dictFind? E u with
      | none => simp only [hfd] at h; cases h
      | some adj =>
        simp only [hfd] at h
        cases hdl : dfs_list (fun i st' => dfs_util fuel d E i st') adj
            (dictSet v u true, p ++ [u], ps) with
        | ok st₁ =>
          obtain ⟨v₁, p₁, ps₁⟩ := st₁
          simp only [hdl] at h
          cases h
          obtain ⟨hv₁, hp₁⟩ := dfs_list_restore (fun i st' => dfs_util fuel d E i st')
            (fun i v' p' ps' s' hf hr => ih i v' p' ps' s' hf hr) adj
            (dictSet v u true) (p ++ [u]) ps (v₁, p₁, ps₁) hdl
          dsimp at hv₁ hp₁
          refine ⟨?_, by rw [hp₁]; simp⟩
          show dictSet v₁ u false = v
          rw [hv₁, dictSet_set]
          exact dictSet_self v u false hfind
        | keyError => simp only [hdl] at h; cases h
        | fuelOut => simp only [hdl] at h; cases h

theorem dfs_list_no_key (E : Dict α (List α))
    (rec : α → DfsSt α → RunRes (DfsSt α))
    (hrecnk : ∀ i v p ps, (∀ k, dictMem v k = dictMem E k) →
      dictFind? v i = some false → rec i (v, p, ps) ≠ .keyError)
    (hrecres : ∀ i v p ps st', dictFind? v i = some false →
      rec i (v, p, ps) = .ok st' → st'.1 = v ∧ st'.2.1 = p) :
    ∀ (adj : List α) (v : Dict α Bool) (p : List α) (ps : List (List α)),
      (∀ k, dictMem v k = dictMem E k) → (∀ i ∈ adj, dictMem E i = true) →
      dfs_list rec adj (v, p, ps) ≠ .keyError := by
  intro adj
  induction adj with
  | nil => intro v p ps _ _ h; cases h
  | cons i rest ih =>
    intro v p ps hkeys hadj h
    simp only [dfs_list] at h
    have hmv : dictMem v i = true := by
      rw [hkeys i]
      exact hadj i (List.mem_cons_self i rest)
    rcases Option.isSome_iff_exists.mp (by simpa [dictMem] using hmv) with ⟨b, hb⟩
    rw [hb] at h
    simp only [] at h
    by_cases hbt : b = true
    · rw [if_pos hbt] at h
      exact ih v p ps hkeys (fun j hj => hadj j (List.mem_cons_of_mem i hj)) h
    · rw [if_neg hbt] at h
      have hbf : b = false := by
        cases b
        · rfl
        · exact absurd rfl hbt
      cases hrc : rec i (v, p, ps) with
      | ok st₁ =>
        obtain ⟨v₁, p₁, ps₁⟩ := st₁
        rw [hrc] at h
        obtain ⟨hv₁, hp₁⟩ := hrecres i v p ps (v₁, p₁, ps₁) (hbf ▸ hb) hrc
        dsimp at hv₁ hp₁
        rw [hv₁, hp₁] at h
        exact ih v p ps₁ hkeys (fun j hj => hadj j (List.mem_cons_of_mem i hj)) h
      | keyError => exact hrecnk i v p ps hkeys (hbf ▸ hb) hrc
      | fuelOut => rw [hrc] at h; cases h

theorem dfs_util_no_key (d : α) (E : Dict α (List α)) (hcl : Closed E) :
    ∀ (fuel : Nat) (u : α) (v : Dict α Bool) (p : List α) (ps : List (List α)),
      (∀ k, dictMem v k = dictMem E k) → dictMem E u = true →
      dfs_util fuel d E u (v, p, ps) ≠ .keyError := by
  intro fuel
  induction fuel with
  | zero => intro u v p ps _ _ h; cases h
  | succ fuel ih =>
    intro u v p ps hkeys hmu h
    simp only [dfs_util] at h
    by_cases hud : u = d
    · rw [if_pos hud] at h
      simp only [] at h
      cases h
    · rw [if_neg hud] at h
      cases hfd : dictFind? E u with
      | none =>
        rw [show dictFind? E u = none from hfd] at h
        have : dictMem E u = false := by simp [dictMem, hfd]
        rw [this] at hmu
        cases hmu
      | some adj =>
        rw [hfd] at h
        simp only [] at h
        have hmv : dictMem v u = true := by rw [hkeys u]; exact hmu
        have hkeys₁ : ∀ k, dictMem (dictSet v u true) k = dictMem E k := by
          intro k
          rw [dictMem_set_stable v u true hmv k]
          exact hkeys k
        cases hdl : dfs_list (fun i st' => dfs_util fuel d E i st') adj
            (dictSet v u true, p ++ [u], ps) with
        | ok st₁ =>
          obtain ⟨v₁, p₁, ps₁⟩ := st₁
          rw [hdl] at h
          cases h
        | keyError =>
          refine dfs_list_no_key E (fun i st' => dfs_util fuel d E i st')
            (fun i v' p' ps' hk hf hcontra => ?_)
            (fun i v' p' ps' s' hf hr => dfs_util_restore d E fuel i v' p' ps' s' hf hr)
            adj (dictSet v u true) (p ++ [u]) ps hkeys₁
            (fun i hi => hcl u adj hfd i hi) hdl
          have hmi : dictMem E i = true := by
            rw [← hk i]
            simp [dictMem, hf]
          exact ih i v' p' ps' hk hmi hcontra
        | fuelOut => rw [hdl] at h; cases h

theorem mapFalse_keys (E : Dict α (List α)) :
    ∀ k, dictMem (E.map (fun kv => (kv.1, false))) k = dictMem E k := by
  intro k
  induction E with
  | nil => rfl
  | cons hd rest ih =>
    obtain ⟨a, b⟩ := hd
    by_cases ha : a = k
    · simp [dictMem, dictFind?, ha]
    · simpa [dictMem, dictFind?, ha] using ih

theorem runSources_no_key (fuel : Nat) (d : α) (E : Dict α (List α))
    (hcl : Closed E) :
    ∀ (srcs : List α) (ps : List (List α)), SubKeys srcs E →
      runSources fuel d E srcs ps ≠ .keyError := by
  intro srcs
  induction srcs with
  | nil => intro ps _ h; cases h
  | cons s rest ih =>
    intro ps hsk h
    simp only [runSources, determine_all_paths] at h
    cases hdf : dfs_util fuel d E s (E.map (fun kv => (kv.1, false)), [], ps) with
    | ok st₁ =>
      obtain ⟨v₁, p₁, ps₁⟩ := st₁
      rw [hdf] at h
      exact ih ps₁ (fun x hx => hsk x (List.mem_cons_of_mem s hx)) h
    | keyError =>
      exact dfs_util_no_key d E hcl fuel s _ [] ps (mapFalse_keys E)
        (hsk s (List.mem_cons_self s rest)) hdf
    | fuelOut => rw [hdf] at h; cases h

/-! ## DFS termination: fuel bounded by the number of unvisited nodes -/

/-- Number of entries of the visited dictionary currently holding `false`. -/
def fcount (v : Dict α Bool) : Nat :=
  (v.filter (fun kv => !kv.2)).length

theorem fcount_pos (v : Dict α Bool) (u : α) (h : dictFind? v u = some false) :
    1 ≤ fcount v := by
  induction v with
  | nil => cases h
  | cons hd rest ih =>
    obtain ⟨k, b⟩ := hd
    by_cases hk : k = u
    · have hb : b = false := by
        simp [dictFind?, hk] at h
        exact h
      subst hb
      simp [fcount, List.filter]
    · simp only [dictFind?, if_neg hk] at h
      have := ih h
      cases b <;> simp [fcount, List.filter] at this ⊢ <;> omega

theorem fcount_set_true (v : Dict α Bool) (u : α) (h : dictFind? v u = some false) :
    fcount v = fcount (dictSet v u true) + 1 := by
  induction v with
  | nil => cases h
  | cons hd rest ih =>
    obtain ⟨k, b⟩ := hd
    by_cases hk : k = u
    · have hb : b = false := by
        simp [dictFind?, hk] at h
        exact h
      subst hb
      simp [fcount, dictSet, hk, List.filter]
    · simp only [dictFind?, if_neg hk] at h
      have := ih h
      cases b <;> simp [fcount, dictSet, hk, List.filter] at this ⊢ <;> omega

theorem fcount_mapFalse (E : Dict α (List α)) :
    fcount (E.map (fun kv => (kv.1, false))) = E.length := by
  induction E with
  | nil => rfl
  | cons hd rest ih => simp [fcount, List.filter] at ih ⊢; exact ih

theorem find?_mapFalse (E : Dict α (List α)) (s : α) (h : dictMem E s = true) :
    dictFind? (E.map (fun kv => (kv.1, false))) s = some false := by
  induction E with
  | nil => cases h
  | cons hd rest ih =>
    obtain ⟨a, b⟩ := hd
    by_cases ha : a = s
    · simp [dictFind?, ha]
    · simp only [List.map_cons, dictFind?, if_neg ha]
      exact ih (by simpa [dictMem, dictFind?, ha] using h)

theorem dfs_list_ok (E : Dict α (List α)) (rec : α → DfsSt α → RunRes (DfsSt α))
    (m : Nat)
    (hrecok : ∀ i v p ps, fcount v ≤ m → dictFind? v i = some false →
      (∀ k, dictMem v k = dictMem E k) → ∃ r, rec i (v, p, ps) = .ok r)
    (hrecres : ∀ i v p ps st', dictFind? v i = some false →
      rec i (v, p, ps) = .ok st' → st'.1 = v ∧ st'.2.1 = p) :
    ∀ (adj : List α) (v : Dict α Bool) (p : List α) (ps : List (List α)),
      fcount v ≤ m → (∀ k, dictMem v k = dictMem E k) →
      (∀ i ∈ adj, dictMem E i = true) →
      ∃ r, dfs_list rec adj (v, p, ps) = .ok r ∧ r.1 = v ∧ r.2.1 = p := by
  intro adj
  induction adj with
  | nil => intro v p ps _ _ _; exact ⟨(v, p, ps), rfl, rfl, rfl⟩
  | cons i rest ih =>
    intro v p ps hfc hkeys hadj
    have hmv : dictMem v i = true := by
      rw [hkeys i]
      exact hadj i (List.mem_cons_self i rest)
    rcases Option.isSome_iff_exists.mp (by simpa [dictMem] using hmv) with ⟨b, hb⟩
    by_cases hbt : b = true
    · obtain ⟨r, hr, hrv, hrp⟩ :=
        ih v p ps hfc hkeys (fun j hj => hadj j (List.mem_cons_of_mem i hj))
      refine ⟨r, ?_, hrv, hrp⟩
      simp only [dfs_list, hb]
      rw [if_pos hbt]
      exact hr
    · have hbf : b = false := by
        cases b
        · rfl
        · exact absurd rfl hbt
      subst hbf
      obtain ⟨st₁, hst₁⟩ := hrecok i v p ps hfc hb hkeys
      obtain ⟨v₁, p₁, ps₁⟩ := st₁
      obtain ⟨hv₁, hp₁⟩ := hrecres i v p ps (v₁, p₁, ps₁) hb hst₁
      dsimp at hv₁ hp₁
      rw [hv₁, hp₁] at hst₁
      obtain ⟨r, hr, hrv, hrp⟩ :=
        ih v p ps₁ hfc hkeys (fun j hj => hadj j (List.mem_cons_of_mem i hj))
      refine ⟨r, ?_, hrv, hrp⟩
      simp only [dfs_list, hb]
      rw [if_neg (by simp : ¬ false = true)]
      rw [hst₁]
      exact hr

theorem dfs_util_ok (d : α) (E : Dict α (List α)) (hcl : Closed E) :
    ∀ (n fuel : Nat) (u : α) (v : Dict α Bool) (p : List α)
      (ps : List (List α)), fcount v ≤ n → n + 1 ≤ fuel →
      dictFind? v u = some false → (∀ k, dictMem v k = dictMem E k) →
      ∃ r, dfs_util fuel d E u (v, p, ps) = .ok r := by
  intro n
  induction n with
  | zero =>
    intro fuel u v p ps hfc _ hfind _
    exact absurd (le_trans (fcount_pos v u hfind) hfc) (by omega)
  | succ n ih =>
    intro fuel u v p ps hfc hfuel hfind hkeys
    cases fuel with
    | zero => omega
    | succ fuel =>
      have hfuel' : n + 1 ≤ fuel := by omega
      have hmv : dictMem v u = true := by simp [dictMem, hfind]
      have hfc₁ : fcount (dictSet v u true) ≤ n := by
        have := fcount_set_true v u hfind
        omega
      have hkeys₁ : ∀ k, dictMem (dictSet v u true) k = dictMem E k := by
        intro k
        rw [dictMem_set_stable v u true hmv k]
        exact hkeys k
      by_cases hud : u = d
      · refine ⟨?_, ?_⟩
        · exact (dictSet (dictSet v u true) u false, (p ++ [u]).dropLast,
            if p ++ [u] ∈ ps then ps else ps ++ [p ++ [u]])
        · simp only [dfs_util]
          rw [if_pos hud]
      · have hmu : dictMem E u = true := by rw [← hkeys u]; exact hmv
        rcases Option.isSome_iff_exists.mp (by simpa [dictMem] using hmu) with ⟨adj, hadj⟩
        have hadjmem : ∀ i ∈ adj, dictMem E i = true := fun i hi => hcl u adj hadj i hi
        obtain ⟨r, hr, hrv, hrp⟩ := dfs_list_ok E (fun i st' => dfs_util fuel d E i st') n
          (fun i v' p' ps' hf hff hk => ih fuel i v' p' ps' hf hfuel' hff hk)
          (fun i v' p' ps' s' hf hrr => dfs_util_restore d E fuel i v' p' ps' s' hf hrr)
          adj (dictSet v u true) (p ++ [u]) ps hfc₁ hkeys₁ hadjmem
        obtain ⟨v₁, p₁, ps₁⟩ := r
        refine ⟨(dictSet v₁ u false, p₁.dropLast, ps₁), ?_⟩
        simp only [dfs_util]
        rw [if_neg hud, hadj]
        simp only [hr]

theorem determine_all_paths_ok (d : α) (E : Dict α (List α)) (hcl : Closed E)
    (fuel : Nat) (hfuel : E.length + 1 ≤ fuel) (s : α)
    (hs : dictMem E s = true) (ps : List (List α)) :
    ∃ ps', determine_all_paths fuel s d E ps = .ok ps' := by
  obtain ⟨r, hr⟩ := dfs_util_ok d E hcl E.length fuel s
    (E.map (fun kv => (kv.1, false))) [] ps
    (by rw [fcount_mapFalse]) hfuel (find?_mapFalse E s hs) (mapFalse_keys E)
  obtain ⟨v₁, p₁, ps₁⟩ := r
  refine ⟨ps₁, ?_⟩
  simp only [determine_all_paths, hr]

theorem runSources_ok (d : α) (E : Dict α (List α)) (hcl : Closed E)
    (fuel : Nat) (hfuel : E.length + 1 ≤ fuel) :
    ∀ (srcs : List α) (ps : List (List α)), SubKeys srcs E →
      ∃ ps', runSources fuel d E srcs ps = .ok ps' := by
  intro srcs
  induction srcs with
  | nil => intro ps _; exact ⟨ps, rfl⟩
  | cons s rest ih =>
    intro ps hsk
    obtain ⟨ps₁, hps₁⟩ := determine_all_paths_ok d E hcl fuel hfuel s
      (hsk s (List.mem_cons_self s rest)) ps
    obtain ⟨ps', hps'⟩ := ih ps₁ (fun x hx => hsk x (List.mem_cons_of_mem s hx))
    refine ⟨ps', ?_⟩
    simp only [runSources, hps₁]
    exact hps'

/-! ## Termination of the backward walk under acyclicity

More fuel never changes a successful `add_edges` run, and on an input
whose backward derivation relation is well-founded (acyclic, for these
finite maps) enough fuel always exists. -/

theorem add_edges_list_mono (bd : LineageMap α) (tb : α)
    (rec rec' : α → WalkSt α → Option (WalkSt α))
    (hmono : ∀ t st st', rec t st = some st' → rec' t st = some st') :
    ∀ (fl : List α) (st st' : WalkSt α),
      add_edges_list rec tb bd fl st = some st' →
      add_edges_list rec' tb bd fl st = some st' := by
  intro fl
  induction fl with
  | nil => intro st st' h; exact h
  | cons f rest ih =>
    intro st st' h
    simp only [add_edges_list] at h ⊢
    by_cases hfm : dictMem bd f
    · rw [if_pos hfm] at h ⊢
      cases hrc : rec f (add_edge f (some tb) st.1, st.2) with
      | none => rw [hrc] at h; cases h
      | some st₁ =>
        rw [hrc] at h
        rw [hmono f _ st₁ hrc]
        exact ih st₁ st' h
    · rw [if_neg hfm] at h ⊢
      exact ih _ st' h

theorem add_edges_mono (bd : LineageMap α) :
    ∀ (fuel : Nat) (tb : α) (st st' : WalkSt α),
      add_edges fuel bd tb st = some st' →
      add_edges (fuel + 1) bd tb st = some st' := by
  intro fuel
  induction fuel with
  | zero => intro tb st st' h; cases h
  | succ fuel ih =>
    intro tb st st' h
    cases hfd : dictFind? bd tb with
    | none =>
      simp only [add_edges, hfd] at h ⊢
      exact h
    | some fl =>
      simp only [add_edges, hfd] at h ⊢
      exact add_edges_list_mono bd tb _ _ (fun t s s' hr => ih t s s' hr) fl st st' h

theorem add_edges_mono_add (bd : LineageMap α) (k : Nat) :
    ∀ (fuel : Nat) (tb : α) (st st' : WalkSt α),
      add_edges fuel bd tb st = some st' →
      add_edges (fuel + k) bd tb st = some st' := by
  induction k with
  | zero => intro fuel tb st st' h; exact h
  | succ k ih =>
    intro fuel tb st st' h
    have := ih fuel tb st st' h
    have h2 := add_edges_mono bd (fuel + k) tb st st' this
    exact h2

theorem add_edges_mono_le (bd : LineageMap α) (fuel fuel' : Nat)
    (hle : fuel ≤ fuel') (tb : α) (st st' : WalkSt α)
    (h : add_edges fuel bd tb st = some st') :
    add_edges fuel' bd tb st = some st' := by
  have := add_edges_mono_add bd (fuel' - fuel) fuel tb st st' h
  rwa [Nat.add_sub_cancel' hle] at this

/-- One backward derivation step for the walk: `DStep bd x y` holds when
the walk at `y` descends directly into `x`. `∀ a, Acc (DStep bd) a` is
well-foundedness of the backward derivation relation — for a finite
lineage map, exactly acyclicity. -/
def DStep (bd : LineageMap α) (x y : α) : Prop := StepB bd y x

theorem add_edges_list_exists (bd : LineageMap α) (x : α) :
    ∀ (fl : List α),
      (∀ f ∈ fl, dictMem bd f = true →
        ∃ F, ∀ F', F ≤ F' → ∀ st, ∃ st', add_edges F' bd f st = some st') →
      ∃ G, ∀ G', G ≤ G' → ∀ st, ∃ st',
        add_edges_list (fun t s => add_edges G' bd t s) x bd fl st = some st' := by
  intro fl
  induction fl with
  | nil => exact fun _ => ⟨0, fun G' _ st => ⟨st, rfl⟩⟩
  | cons f rest ih =>
    intro hyp
    obtain ⟨Gr, hGr⟩ := ih (fun g hg hm => hyp g (List.mem_cons_of_mem f hg) hm)
    by_cases hfm : dictMem bd f
    · obtain ⟨Ff, hFf⟩ := hyp f (List.mem_cons_self f rest) hfm
      refine ⟨max Ff Gr, fun G' hG' st => ?_⟩
      simp only [add_edges_list]
      rw [if_pos hfm]
      obtain ⟨st₁, hst₁⟩ := hFf G' (le_trans (le_max_left Ff Gr) hG')
        (add_edge f (some x) st.1, st.2)
      rw [hst₁]
      exact hGr G' (le_trans (le_max_right Ff Gr) hG') st₁
    · refine ⟨Gr, fun G' hG' st => ?_⟩
      simp only [add_edges_list]
      rw [if_neg hfm]
      exact hGr G' hG' _

theorem add_edges_exists (bd : LineageMap α) (hacc : ∀ a, Acc (DStep bd) a)
    (tb : α) :
    ∃ F, ∀ F', F ≤ F' → ∀ st, ∃ st', add_edges F' bd tb st = some st' := by
  have h := hacc tb
  induction h with
  | intro x hx ih =>
    cases hfd : dictFind? bd x with
    | none =>
      refine ⟨1, fun F' hF' st => ?_⟩
      cases F' with
      | zero => omega
      | succ f => exact ⟨st, by simp [add_edges, hfd]⟩
    | some fl =>
      obtain ⟨G, hG⟩ := add_edges_list_exists bd x fl (fun f hf hfm =>
        ih f ⟨⟨fl, hfd, hf⟩, hfm⟩)
      refine ⟨G + 1, fun F' hF' st => ?_⟩
      cases F' with
      | zero => omega
      | succ g =>
        have hGg : G ≤ g := by omega
        obtain ⟨st', hst'⟩ := hG g hGg st
        refine ⟨st', ?_⟩
        simp only [add_edges, hfd]
        exact hst'

/-- The seed state of `expandTarget` — just the sink — satisfies the walk
invariants. -/
theorem expand_init_inv (t : α) :
    WalkInv t ((add_edge t none ([] : Dict α (List α)), []) : WalkSt α) := by
  refine ⟨?_, ?_, ?_⟩
  · intro u l hfd x hx
    have hae : add_edge t none ([] : Dict α (List α)) = [(t, [])] := rfl
    rw [hae] at hfd
    by_cases htu : t = u
    · simp [dictFind?, htu] at hfd
      rw [hfd] at hx
      cases hx
    · simp [dictFind?, htu] at hfd
  · simp [add_edge, dictSet, dictMem, dictFind?]
  · intro x hx
    cases hx

/-- The acyclic chain input `(A,B)`: lineage map `{B: [A]}`. -/
def chainDict : LineageMap String := buildBatchDict [("A", "B")]

theorem chainDict_no_step : ∀ x y : String, ¬ DStep chainDict x y := by
  rintro x y ⟨⟨fl, hfd, hx⟩, hxm⟩
  have hch : chainDict = [("B", ["A"])] := by decide
  rw [hch] at hfd
  by_cases hy : "B" = y
  · simp [dictFind?, hy] at hfd
    rw [← hfd] at hx
    have hxa : x = "A" := by simpa using hx
    rw [hxa, hch] at hxm
    simp [dictMem, dictFind?] at hxm
  · simp [dictFind?, hy] at hfd

theorem chainDict_acc : ∀ a : String, Acc (DStep chainDict) a :=
  fun a => Acc.intro a (fun y hy => absurd hy (chainDict_no_step y a))

/-- C3: for every lineage map whose backward derivation relation is
well-founded (acyclic — the two coincide on these finite maps) and every
target, some fuel lets the whole per-target reconstruction (recursive
graph expansion and DFS path enumeration) run to completion; and on a
genuinely cyclic input (`A` from `B`, `B` from `A`), the expansion
exhausts any amount of fuel — the routine does not terminate. -/
theorem termination_characterization {α : Type} [DecidableEq α] :
    (∀ (bd : LineageMap α), (∀ a, Acc (DStep bd) a) →
      ∀ t, ∃ fuel ps, processTarget fuel bd t = .ok ps) ∧
    (∀ fuel : Nat, processTarget fuel cyclicDict "A" = .fuelOut) := by
  constructor
  · intro bd hacc t
    obtain ⟨F, hF⟩ := add_edges_exists bd hacc t
    obtain ⟨⟨E, srcs⟩, hE⟩ := hF F le_rfl (add_edge t none [], [])
    obtain ⟨⟨hcl, _, hsk⟩, _⟩ :=
      add_edges_closed bd F t _ (E, srcs) (expand_init_inv t) hE
    have hE' : add_edges (max F (E.length + 1)) bd t (add_edge t none [], []) =
        some (E, srcs) :=
      add_edges_mono_le bd F _ (le_max_left F (E.length + 1)) t _ (E, srcs) hE
    obtain ⟨ps, hps⟩ := runSources_ok t E hcl (max F (E.length + 1))
      (le_max_right F (E.length + 1)) srcs [] hsk
    refine ⟨max F (E.length + 1), ps, ?_⟩
    simp only [processTarget, expandTarget, hE']
    exact hps
  · intro fuel
    have hstepAB : StepB cyclicDict "A" "B" := ⟨⟨["B"], by decide, by decide⟩, by decide⟩
    have hstepBA : StepB cyclicDict "B" "A" := ⟨⟨["A"], by decide, by decide⟩, by decide⟩
    have hcyc : BPathP cyclicDict "A" "A" := (BPathP.single hstepAB).tail hstepBA
    have hnone := add_edges_cyc cyclicDict fuel "A" (add_edge "A" none [], []) hcyc
    simp only [processTarget, expandTarget, hnone]

/-- Witness for `termination_characterization`: the chain lineage map is
acyclic (its backward derivation relation has no step at all), and the
reconstruction of target `B` indeed finishes for some fuel. -/
theorem termination_characterization_witness :
    ∃ fuel ps, processTarget fuel chainDict "B" = .ok ps :=
  termination_characterization.1 chainDict chainDict_acc "B"

/-- C10: after graph expansion, every node appearing in an adjacency list
of the edges dictionary is itself a key of the dictionary, and every
collected source is a key as well; consequently the path enumeration over
these edges and sources never raises a `KeyError` — every `edges[u]` and
`visited[i]` lookup finds its key. -/
theorem dfs_lookups_safe {α : Type} [DecidableEq α] (fuel : Nat)
    (bd : LineageMap α) (t : α) (E : Dict α (List α)) (srcs : List α)
    (h : expandTarget fuel bd t = some (E, srcs)) :
    Closed E ∧ SubKeys srcs E ∧
      (∀ (fuel' : Nat) (ps : List (List α)),
        runSources fuel' t E srcs ps ≠ .keyError) := by
  have hinit : WalkInv t ((add_edge t none ([] : Dict α (List α)), []) : WalkSt α) := by
    refine ⟨?_, ?_, ?_⟩
    · intro u l hfd x hx
      have hae : add_edge t none ([] : Dict α (List α)) = [(t, [])] := rfl
      rw [hae] at hfd
      by_cases htu : t = u
      · simp [dictFind?, htu] at hfd
        rw [hfd] at hx
        cases hx
      · simp [dictFind?, htu] at hfd
    · simp [add_edge, dictSet, dictMem, dictFind?]
    · intro x hx
      cases hx
  obtain ⟨⟨hcl, _, hsk⟩, _⟩ := add_edges_closed bd fuel t _ (E, srcs) hinit h
  exact ⟨hcl, hsk, fun fuel' ps => runSources_no_key fuel' t E hcl srcs ps hsk⟩

/-- Witness for `dfs_lookups_safe` at the diamond input. -/
theorem dfs_lookups_safe_witness :
    dictMem [("D", ([] : List String)), ("B", ["D"]), ("A", ["B", "C"]), ("C", ["D"])]
      "A" = true :=
  (dfs_lookups_safe 32 diamondDict "D"
    [("D", []), ("B", ["D"]), ("A", ["B", "C"]), ("C", ["D"])] ["A", "A"]
    (by decide)).2.1 "A" (by decide)

/-! ## No duplicate paths -/

theorem dfs_list_nodup (rec : α → DfsSt α → RunRes (DfsSt α))
    (hrec : ∀ i st st', rec i st = .ok st' → st.2.2.Nodup → st'.2.2.Nodup) :
    ∀ (adj : List α) (st st' : DfsSt α),
      dfs_list rec adj st = .ok st' → st.2.2.Nodup → st'.2.2.Nodup := by
  intro adj
  induction adj with
  | nil => intro st st' h hnd; cases h; exact hnd
  | cons i rest ih =>
    intro st st' h hnd
    simp only [dfs_list] at h
    cases hfd : dictFind? st.1 i with
    | none => simp only [hfd] at h; cases h
    | some b =>
      simp only [hfd] at h
      by_cases hb : b = true
      · rw [if_pos hb] at h
        exact ih st st' h hnd
      · rw [if_neg hb] at h
        cases hrc : rec i st with
        | ok st₁ =>
          simp only [hrc] at h
          exact ih st₁ st' h (hrec i st st₁ hrc hnd)
        | keyError => simp only [hrc] at h; cases h
        | fuelOut => simp only [hrc] at h; cases h

theorem dfs_util_nodup :
    ∀ (fuel : Nat) (d : α) (E : Dict α (List α)) (u : α) (st st' : DfsSt α),
      dfs_util fuel d E u st = .ok st' → st.2.2.Nodup → st'.2.2.Nodup := by
  intro fuel
  induction fuel with
  | zero => intro d E u st st' h; cases h
  | succ fuel ih =>
    intro d E u st st' h hnd
    simp only [dfs_util] at h
    by_cases hud : u = d
    · rw [if_pos hud] at h
      simp only [] at h
      cases h
      by_cases hmem : st.2.1 ++ [u] ∈ st.2.2
      · simpa [hmem] using hnd
      · simp only [if_neg hmem]
        simp [List.nodup_append, hnd, hmem]
    · rw [if_neg hud] at h
      cases hfd : dictFind? E u with
      | none => simp only [hfd] at h; cases h
      | some adj =>
        simp only [hfd] at h
        cases hdl : dfs_list (fun i st' => dfs_util fuel d E i st') adj
            (dictSet st.1 u true, st.2.1 ++ [u], st.2.2) with
        | ok st₁ =>
          obtain ⟨v₁, p₁, ps₁⟩ := st₁
          simp only [hdl] at h
          cases h
          exact dfs_list_nodup (fun i st' => dfs_util fuel d E i st')
            (fun i s s' hr => ih d E i s s' hr) adj _ (v₁, p₁, ps₁) hdl hnd
        | keyError => simp only [hdl] at h; cases h
        | fuelOut => simp only [hdl] at h; cases h

theorem runSources_nodup (fuel : Nat) (d : α) (E : Dict α (List α)) :
    ∀ (srcs : List α) (ps ps' : List (List α)),
      runSources fuel d E srcs ps = .ok ps' → ps.Nodup → ps'.Nodup := by
  intro srcs
  induction srcs with
  | nil => intro ps ps' h hnd; cases h; exact hnd
  | cons s rest ih =>
    intro ps ps' h hnd
    simp only [runSources, determine_all_paths] at h
    cases hdf : dfs_util fuel d E s (E.map (fun kv => (kv.1, false)), [], ps) with
    | ok st₁ =>
      obtain ⟨v₁, p₁, ps₁⟩ := st₁
      rw [hdf] at h
      exact ih ps₁ ps' h (dfs_util_nodup fuel d E s _ _ hdf hnd)
    | keyError => rw [hdf] at h; cases h
    | fuelOut => rw [hdf] at h; cases h

/-- C5: for every lineage map and every target, a successfully computed
path list never contains two identical path sequences: a completed path is
appended (as a copy) only when an identical sequence is not already in the
result list, so the result is duplicate-free. -/
theorem no_duplicate_paths {α : Type} [DecidableEq α] (fuel : Nat)
    (bd : LineageMap α) (t : α) (ps : List (List α))
    (h : processTarget fuel bd t = .ok ps) : ps.Nodup := by
  simp only [processTarget] at h
  cases hexp : expandTarget fuel bd t with
  | none => rw [hexp] at h; cases h
  | some st =>
    obtain ⟨E, srcs⟩ := st
    rw [hexp] at h
    exact runSources_nodup fuel t E srcs [] ps h List.nodup_nil

/-- Witness for `no_duplicate_paths` at the diamond input. -/
theorem no_duplicate_paths_witness :
    ([["A", "B", "D"], ["A", "C", "D"]] : List (List String)).Nodup :=
  no_duplicate_paths 32 diamondDict "D" [["A", "B", "D"], ["A", "C", "D"]] (by decide)

/-- C4: a target absent from the lineage map yields an empty path list
(normal return, no `KeyError`), the derived graph holds only the sink node
with empty adjacency, and a full `apply` run over a target list containing
such a target still completes, storing `[]` for it (the error is only
logged; logging is advisory and not part of the returned data). -/
theorem unknown_target_empty {α : Type} [DecidableEq α] (fuel : Nat)
    (bd : LineageMap α) (t : α) (h : dictFind? bd t = none) :
    expandTarget (fuel + 1) bd t = some ([(t, [])], []) ∧
    processTarget (fuel + 1) bd t = .ok [] ∧
    (∀ (fuel' : Nat) (ts : List α) (pd d' : Dict α (List (List α))),
      reconstructApply fuel' bd ts pd = .ok d' → t ∈ ts →
        dictFind? d' t = some []) := by
  have hexp : expandTarget (fuel + 1) bd t = some ([(t, [])], []) := by
    simp [expandTarget, add_edges, h, add_edge, dictSet]
  refine ⟨hexp, ?_, ?_⟩
  · simp [processTarget, hexp, runSources]
  · intro fuel' ts pd d' happ hts
    obtain ⟨ps, hp, hfind⟩ := apply_mem fuel' bd ts pd d' happ t hts
    cases fuel' with
    | zero => simp [processTarget, expandTarget, add_edges] at hp
    | succ f =>
      have hexp' : expandTarget (f + 1) bd t = some ([(t, [])], []) := by
        simp [expandTarget, add_edges, h, add_edge, dictSet]
      rw [show processTarget (f + 1) bd t = .ok [] by
        simp [processTarget, hexp', runSources]] at hp
      cases hp
      exact hfind

/-- Witness for `unknown_target_empty`: `Z` is not a key of the diamond map. -/
theorem unknown_target_empty_witness :
    expandTarget 32 diamondDict "Z" = some ([("Z", [])], []) ∧
      processTarget 32 diamondDict "Z" = .ok [] :=
  ⟨(unknown_target_empty 31 diamondDict "Z" (by decide)).1,
    (unknown_target_empty 31 diamondDict "Z" (by decide)).2.1⟩

/-- C8: the per-target traversal state (edges, sources, accumulated paths)
is reset at the start of each target's processing, so within one `apply`
run the path list stored for a member target equals the one computed when
that target is processed alone, against the same lineage map. -/
theorem per_target_isolation {α : Type} [DecidableEq α] (fuel : Nat)
    (bd : LineageMap α) (ts : List α) (pd d' : Dict α (List (List α)))
    (t : α) (paths : List (List α))
    (happ : reconstructApply fuel bd ts pd = .ok d') (ht : t ∈ ts)
    (hp : processTarget fuel bd t = .ok paths) :
    dictFind? d' t = some paths ∧
      reconstructApply fuel bd [t] [] = .ok [(t, paths)] := by
  obtain ⟨ps, hps, hfind⟩ := apply_mem fuel bd ts pd d' happ t ht
  have hpe : ps = paths := by
    rw [hp] at hps
    exact (RunRes.ok.inj hps).symm
  subst hpe
  exact ⟨hfind, by simp [reconstructApply, hp, dictSet]⟩

/-- Witness for `per_target_isolation` at the diamond input. -/
theorem per_target_isolation_witness :
    dictFind? [("D", [["A", "B", "D"], ["A", "C", "D"]])] "D" =
        some [["A", "B", "D"], ["A", "C", "D"]] ∧
      reconstructApply 32 diamondDict ["D"] [] =
        .ok [("D", [["A", "B", "D"], ["A", "C", "D"]])] :=
  per_target_isolation 32 diamondDict ["D"] []
    [("D", [["A", "B", "D"], ["A", "C", "D"]])] "D"
    [["A", "B", "D"], ["A", "C", "D"]] (by decide) (by decide) (by decide)

/-- C9: `path_dictionary` is initialised only in the constructor, so a
second `apply` call on the same instance starts from the dictionary left by
the first call: every key not among the second call's targets keeps the
entry computed earlier, and the new targets' entries are added. -/
theorem path_dictionary_accumulates {α : Type} [DecidableEq α]
    (f1 f2 : Nat) (bd1 bd2 : LineageMap α) (ts1 ts2 : List α)
    (d1 d2 : Dict α (List (List α)))
    (h1 : reconstructApply f1 bd1 ts1 [] = .ok d1)
    (h2 : reconstructApply f2 bd2 ts2 d1 = .ok d2) :
    (∀ k, k ∉ ts2 → dictFind? d2 k = dictFind? d1 k) ∧
      (∀ t ∈ ts2, ∃ ps, processTarget f2 bd2 t = .ok ps ∧
        dictFind? d2 t = some ps) :=
  ⟨fun k hk => apply_frame f2 bd2 ts2 d1 d2 h2 k hk,
    fun t ht => apply_mem f2 bd2 ts2 d1 d2 h2 t ht⟩

/-- Witness for `path_dictionary_accumulates`: after reconstructing `D` and
then `B` on the same instance, the entry for `D` from the first call is
still present, unchanged, in the second call's result. -/
theorem path_dictionary_accumulates_witness :
    dictFind? [("D", [["A", "B", "D"], ["A", "C", "D"]]), ("B", [["A", "B"]])] "D" =
      dictFind? [("D", [["A", "B", "D"], ["A", "C", "D"]])] "D" :=
  (path_dictionary_accumulates 32 32 diamondDict diamondDict ["D"] ["B"]
    [("D", [["A", "B", "D"], ["A", "C", "D"]])]
    [("D", [["A", "B", "D"], ["A", "C", "D"]]), ("B", [["A", "B"]])]
    (by decide) (by decide)).1 "D" (by decide)

end BatchHist
